import Mathlib

/-!
Verification of the HTTP wire-format core of rust-http-server (src/http.rs):
request decoding (start line, headers, body) and response serialization.

Rust strings are modelled as lists of characters (`Str`); all the
delimiters the code splits on are ASCII, so splitting a valid UTF-8
string on them agrees character-wise with the byte-wise Rust code,
while `utf8Len` recovers the byte length that Rust's `String::len`
returns.  Fallible code (`panic!`, `expect`) is modelled with
`Except DecodeError`, using the error taxonomy of the specification.
Recursive string helpers take an explicit fuel argument (always
sufficient, see the `..._fuel` lemmas) so that every definition
reduces inside the kernel.
-/

abbrev Str := List Char

/-- Error taxonomy of the specification, standing for the panics of the
source (`unexpected HTTP request format`, `Unexpected HTTP method`,
unknown content type). -/
inductive DecodeError where
  | MalformedRequest
  | UnknownMethod
  | UnknownContentType
deriving DecidableEq, Repr

/-- `HttpMethod` from src/http.rs. -/
inductive HttpMethod where
  | Get
  | Post
deriving DecidableEq, Repr

/-- `HttpStatusCode` from src/http.rs. -/
inductive HttpStatusCode where
  | Ok
  | Created
  | NotFound
deriving DecidableEq, Repr

/-- `HttpContentType` from src/http.rs. -/
inductive HttpContentType where
  | ApplicationJson
  | ApplicationOctetStream
  | TextPlain
deriving DecidableEq, Repr

/-- `HttpContent` from src/http.rs. -/
structure HttpContent where
  content : Str
  content_type : HttpContentType
deriving DecidableEq, Repr

/-- `HttpRequest` from src/http.rs.  The Rust `HashMap<String, String>` is
modelled as an association list with pairwise distinct keys; `insertHeader`
below gives it the map's last-write-wins insert semantics. -/
structure HttpRequest where
  method : HttpMethod
  path : Str
  headers : List (Str × Str)
  content : Option HttpContent
deriving DecidableEq, Repr

/-- `HttpResponse` from src/http.rs. -/
structure HttpResponse where
  status_code : HttpStatusCode
  content : Option HttpContent
deriving DecidableEq, Repr

/-- Rust `str::split_once(sep)`: split at the first occurrence of `sep`,
returning the parts before and after it, or `none` when `sep` does not
occur. -/
def splitOnce (sep s : Str) : Option (Str × Str) :=
  if sep.isPrefixOf s then some ([], s.drop sep.length)
  else
    match s with
    | [] => none
    | c :: s2 => (splitOnce sep s2).map (fun pr => (c :: pr.1, pr.2))

/-- Fueled worker for Rust `str::split(sep)` with the non-empty separator
`c :: t`.  The fuel only bounds the recursion depth; `splitStrF_fuel`
shows any fuel above the input length gives the same answer. -/
def splitStrF : Nat → Char → Str → Str → List Str
  | 0, _, _, s => [s]
  | fuel + 1, c, t, s =>
    match splitOnce (c :: t) s with
    | none => [s]
    | some pr => pr.1 :: splitStrF fuel c t pr.2

/-- Rust `str::split(sep)` for the non-empty separator `c :: t`: the
(always non-empty) list of parts between occurrences of the separator,
keeping empty parts. -/
def splitStr (c : Char) (t : Str) (s : Str) : List Str :=
  splitStrF (s.length + 1) c t s

/-- Rust `char::is_whitespace`: the Unicode `White_Space` code points. -/
def rustIsWhitespace (c : Char) : Bool :=
  let n := c.toNat
  (0x9 ≤ n && n ≤ 0xd) || n = 0x20 || n = 0x85 || n = 0xa0 || n = 0x1680 ||
    (0x2000 ≤ n && n ≤ 0x200a) || n = 0x2028 || n = 0x2029 || n = 0x202f ||
    n = 0x205f || n = 0x3000

/-- Rust `str::trim`: drop whitespace from both ends. -/
def trim (s : Str) : Str :=
  ((s.dropWhile rustIsWhitespace).reverse.dropWhile rustIsWhitespace).reverse

/-- Rust `HashMap::insert` on the association-list model: overwrite the
value of an existing key in place, otherwise append the new binding. -/
def insertHeader (m : List (Str × Str)) (k v : Str) : List (Str × Str) :=
  match m with
  | [] => [(k, v)]
  | (k2, v2) :: rest =>
    if k2 = k then (k, v) :: rest else (k2, v2) :: insertHeader rest k v

/-- Lookup in the association-list model of the header map. -/
def lookupHeader (k : Str) : List (Str × Str) → Option Str
  | [] => none
  | (k2, v) :: rest => if k2 = k then some v else lookupHeader k rest

/-- `impl FromStr for HttpMethod` (src/http.rs): exact match of
`GET` and `POST`; everything else is the `Unexpected HTTP method`
failure. -/
def methodFromStr (s : Str) : Except DecodeError HttpMethod :=
  if s = "GET".toList then Except.ok HttpMethod.Get
  else if s = "POST".toList then Except.ok HttpMethod.Post
  else Except.error DecodeError.UnknownMethod

/-- The separator `\r\n`. -/
def crlf : Str := ['\r', '\n']

/-- The blank-line separator `\r\n\r\n`. -/
def crlf2 : Str := ['\r', '\n', '\r', '\n']

/-- `HttpRequest::parse_start_line` (src/http.rs): split the line on
single spaces, parse token 0 as the method, take token 1 verbatim as the
path.  The Rust code first evaluates `from_str(res[0]).expect(..)` and
then indexes `res[1]`, so an unknown method reports `UnknownMethod` even
on a one-token line, while `res[1]` out of bounds is a structural
(`MalformedRequest`) failure.  `splitStr` never returns `[]`
(`splitStr_ne_nil`), so the first branch is unreachable. -/
def parse_start_line (line : Str) : Except DecodeError (HttpMethod × Str) :=
  match splitStr ' ' [] line with
  | [] => Except.error DecodeError.MalformedRequest
  | t0 :: rest =>
    match methodFromStr t0, rest with
    | Except.error e, _ => Except.error e
    | Except.ok _, [] => Except.error DecodeError.MalformedRequest
    | Except.ok m, p :: _ => Except.ok (m, p)

/-- One step of `HttpRequest::parse_headers` (src/http.rs): split the
line at the first `:`; keep the key verbatim, trim the value, insert
into the map; a line with no `:` is skipped. -/
def headerStep (m : List (Str × Str)) (line : Str) : List (Str × Str) :=
  match splitOnce [':'] line with
  | none => m
  | some pr => insertHeader m pr.1 (trim pr.2)

/-- `HttpRequest::parse_headers` (src/http.rs). -/
def parse_headers (lines : List Str) : List (Str × Str) :=
  lines.foldl headerStep []

/-- `HttpRequest::parse_content` (src/http.rs): an empty raw body gives
no content, a non-empty one is wrapped verbatim and always tagged
`TextPlain`. -/
def parse_content (content : Str) : Option HttpContent :=
  if content = [] then none
  else some { content := content, content_type := HttpContentType.TextPlain }

/-- The body of `HttpRequest::new` after the `\r\n\r\n` split
(src/http.rs): split the header block into lines on `\r\n`, parse the
start line (line 0) and the header lines (the rest), wrap the raw body.
`splitStr` never returns `[]`, so the first branch is unreachable. -/
def decodeParts (hdrs body : Str) : Except DecodeError HttpRequest :=
  match splitStr '\r' ['\n'] hdrs with
  | [] => Except.error DecodeError.MalformedRequest
  | l0 :: rest =>
    match parse_start_line l0 with
    | Except.error e => Except.error e
    | Except.ok mp =>
      Except.ok { method := mp.1, path := mp.2,
                  headers := parse_headers rest, content := parse_content body }

/-- `HttpRequest::new` (src/http.rs): split the input at the first
`\r\n\r\n`; no occurrence is the `unexpected HTTP request format` panic,
modelled as `MalformedRequest`. -/
def HttpRequest.new (raw : Str) : Except DecodeError HttpRequest :=
  match splitOnce crlf2 raw with
  | none => Except.error DecodeError.MalformedRequest
  | some pr => decodeParts pr.1 pr.2

/-- `HttpStatusCode::canonical_reason` (src/http.rs). -/
def canonical_reason : HttpStatusCode → Str
  | HttpStatusCode.Ok => "200 OK".toList
  | HttpStatusCode.Created => "201 Created".toList
  | HttpStatusCode.NotFound => "404 Not Found".toList

/-- `HttpContentType::as_str` (src/http.rs). -/
def as_str : HttpContentType → Str
  | HttpContentType.ApplicationJson => "application/json".toList
  | HttpContentType.ApplicationOctetStream => "application/octet-stream".toList
  | HttpContentType.TextPlain => "text/plain".toList

/-- `impl FromStr for HttpContentType` (src/http.rs): exact match of the
three canonical MIME strings. -/
def ctFromStr (s : Str) : Except DecodeError HttpContentType :=
  if s = "application/json".toList then Except.ok HttpContentType.ApplicationJson
  else if s = "application/octet-stream".toList then
    Except.ok HttpContentType.ApplicationOctetStream
  else if s = "text/plain".toList then Except.ok HttpContentType.TextPlain
  else Except.error DecodeError.UnknownContentType

/-- Rust `String::len`: the number of bytes of the UTF-8 encoding. -/
def utf8Len (s : Str) : Nat := (s.map Char.utf8Size).sum

/-- Fueled worker for the decimal rendering of a `usize`
(`Display for usize`, used for the Content-Length value). -/
def natToDigitsF : Nat → Nat → Str
  | 0, _ => []
  | fuel + 1, n =>
    if n < 10 then [Nat.digitChar n]
    else natToDigitsF fuel (n / 10) ++ [Nat.digitChar (n % 10)]

/-- Decimal rendering of a `usize` (Rust `Display`), e.g. `5` to `"5"`. -/
def natToDigits (n : Nat) : Str := natToDigitsF (n + 1) n

/-- The number a string of decimal digits denotes. -/
def digitsVal (s : Str) : Nat := s.foldl (fun a c => 10 * a + (c.toNat - 48)) 0

/-- `impl fmt::Display for HttpResponse` (src/http.rs): with content,
`HTTP/1.1 {status}\r\nContent-Type: {type}\r\nContent-Length: {len}\r\n\r\n{body}`
where `{len}` is `content.content.len()`, the byte length; without,
`HTTP/1.1 {status}\r\n\r\n`. -/
def encodeResponse (r : HttpResponse) : Str :=
  match r.content with
  | some c =>
    "HTTP/1.1 ".toList ++ canonical_reason r.status_code ++
      "\r\nContent-Type: ".toList ++ as_str c.content_type ++
      "\r\nContent-Length: ".toList ++ natToDigits (utf8Len c.content) ++
      "\r\n\r\n".toList ++ c.content
  | none => "HTTP/1.1 ".toList ++ canonical_reason r.status_code ++ "\r\n\r\n".toList

/-- The start-line token of a method, as the decoder's exact-match table
reads it. -/
def methodToken : HttpMethod → Str
  | HttpMethod.Get => "GET".toList
  | HttpMethod.Post => "POST".toList

/-- Modelled from the spec: one header line `<Header: value>` of the
request wire format of section 6 (the serializer of requests is not part
of src/, only its decoder is). -/
def hline (kv : Str × Str) : Str := kv.1 ++ ':' :: ' ' :: kv.2

/-- Lines joined with the `\r\n` separator. -/
def joinCRLF : List Str → Str
  | [] => []
  | [l] => l
  | l :: l2 :: ls => l ++ '\r' :: '\n' :: joinCRLF (l2 :: ls)

/-- Modelled from the spec: the request wire format of section 6,
`<METHOD> <PATH> HTTP/1.1\r\n<Header: value>\r\n...\r\n\r\n<body>`
(`encode_as_request` of the round-trip property of section 8; request
serialization is not part of src/). -/
def encodeRequest (m : HttpMethod) (path : Str) (hs : List (Str × Str)) (body : Str) : Str :=
  joinCRLF ((methodToken m ++ ' ' :: path ++ ' ' :: "HTTP/1.1".toList) :: hs.map hline) ++
    crlf2 ++ body

/-- The string has no leading and no trailing whitespace, so Rust `trim`
leaves it unchanged. -/
def noEdgeWS (v : Str) : Bool :=
  (match v.head? with
   | none => true
   | some ch => !rustIsWhitespace ch)
  && (match v.getLast? with
      | none => true
      | some ch => !rustIsWhitespace ch)

/-- What one header line contributes to the map, per the specification:
split at the first `:`, key verbatim, value trimmed; `none` for a line
with no `:`. -/
def headerKV (line : Str) : Option (Str × Str) :=
  (splitOnce [':'] line).map (fun pr => (pr.1, trim pr.2))

/-- First-defined choice on optional header values. -/
def orO (a b : Option Str) : Option Str :=
  match a with
  | some v => some v
  | none => b

instance {e a : Type} [DecidableEq e] [DecidableEq a] : DecidableEq (Except e a) := fun x y =>
  match x, y with
  | Except.ok v, Except.ok w =>
    if h : v = w then isTrue (by rw [h]) else isFalse (fun hh => h (Except.ok.inj hh))
  | Except.error v, Except.error w =>
    if h : v = w then isTrue (by rw [h]) else isFalse (fun hh => h (Except.error.inj hh))
  | Except.ok _, Except.error _ => isFalse (fun hh => Except.noConfusion hh)
  | Except.error _, Except.ok _ => isFalse (fun hh => Except.noConfusion hh)

theorem isPrefixOf_iff (p s : Str) : p.isPrefixOf s = true ↔ ∃ r : Str, s = p ++ r := by
  induction p generalizing s with
  | nil => simp [List.isPrefixOf]
  | cons a as ih =>
    cases s with
    | nil => simp [List.isPrefixOf]
    | cons b bs =>
      simp only [List.isPrefixOf, Bool.and_eq_true, beq_iff_eq, ih, List.cons_append,
        List.cons.injEq]
      constructor
      · rintro ⟨hab, r, hr⟩
        exact ⟨r, hab.symm, hr⟩
      · rintro ⟨r, hba, hr⟩
        exact ⟨hba.symm, r, hr⟩

theorem splitOnce_pos {sep s : Str} (h : sep.isPrefixOf s = true) :
    splitOnce sep s = some ([], s.drop sep.length) := by
  cases s with
  | nil => simp [splitOnce, h]
  | cons c s2 => simp [splitOnce, h]

theorem splitOnce_nil (d : Char) (t : Str) : splitOnce (d :: t) [] = none := by
  simp [splitOnce, List.isPrefixOf]

theorem splitOnce_neg {sep : Str} {c : Char} {s2 : Str}
    (h : sep.isPrefixOf (c :: s2) = false) :
    splitOnce sep (c :: s2) = (splitOnce sep s2).map (fun pr => (c :: pr.1, pr.2)) := by
  simp [splitOnce, h]

theorem splitOnce_self (d : Char) (t s : Str) :
    splitOnce (d :: t) ((d :: t) ++ s) = some ([], s) := by
  have h : (d :: t).isPrefixOf ((d :: t) ++ s) = true := (isPrefixOf_iff _ _).2 ⟨s, rfl⟩
  rw [splitOnce_pos h, List.drop_left]

theorem splitOnce_clean {d : Char} {t : Str} (a : Str) {s : Str} (h : d ∉ a) :
    splitOnce (d :: t) (a ++ s) = (splitOnce (d :: t) s).map (fun pr => (a ++ pr.1, pr.2)) := by
  induction a with
  | nil => simp
  | cons x a2 ih =>
    have hdx : d ≠ x := fun hh => h (by rw [hh]; exact List.mem_cons_self x a2)
    have hpre : (d :: t).isPrefixOf (x :: (a2 ++ s)) = false := by
      show (d == x && t.isPrefixOf (a2 ++ s)) = false
      rw [beq_eq_false_iff_ne.2 hdx]
      simp
    rw [List.cons_append, splitOnce_neg hpre, ih (fun hm => h (List.mem_cons_of_mem _ hm))]
    cases splitOnce (d :: t) s <;> simp

theorem splitOnce_not_mem {d : Char} {t : Str} {s : Str} (h : d ∉ s) :
    splitOnce (d :: t) s = none := by
  induction s with
  | nil => exact splitOnce_nil d t
  | cons c s2 ih =>
    have hdc : d ≠ c := fun hh => h (by rw [hh]; exact List.mem_cons_self c s2)
    have hpre : (d :: t).isPrefixOf (c :: s2) = false := by
      show (d == c && t.isPrefixOf s2) = false
      rw [beq_eq_false_iff_ne.2 hdc]
      simp
    rw [splitOnce_neg hpre, ih (fun hm => h (List.mem_cons_of_mem _ hm))]
    rfl

theorem splitOnce_len {d : Char} {t : Str} {s a b : Str}
    (h : splitOnce (d :: t) s = some (a, b)) : b.length < s.length := by
  induction s generalizing a b with
  | nil => rw [splitOnce_nil] at h; cases h
  | cons c s2 ih =>
    cases hp : (d :: t).isPrefixOf (c :: s2) with
    | true =>
      rw [splitOnce_pos hp] at h
      have hb : (c :: s2).drop (d :: t).length = b := (Prod.mk.inj (Option.some.inj h)).2
      rw [← hb]
      simp only [List.length_drop, List.length_cons]
      omega
    | false =>
      rw [splitOnce_neg hp] at h
      cases hso : splitOnce (d :: t) s2 with
      | none => rw [hso] at h; cases h
      | some pr =>
        rw [hso] at h
        simp only [Option.map_some', Option.some.injEq, Prod.mk.injEq] at h
        have := ih (a := pr.1) (b := pr.2) (by rw [hso])
        have hb : pr.2.length = b.length := by rw [h.2]
        simp only [List.length_cons]
        omega

theorem splitStrF_fuel (f1 f2 : Nat) {c : Char} {t : Str} {s : Str}
    (h1 : s.length < f1) (h2 : s.length < f2) :
    splitStrF f1 c t s = splitStrF f2 c t s := by
  induction f1 generalizing f2 s with
  | zero => exact absurd h1 (Nat.not_lt_zero _)
  | succ f ih =>
    cases f2 with
    | zero => exact absurd h2 (Nat.not_lt_zero _)
    | succ f2b =>
      cases hso : splitOnce (c :: t) s with
      | none => simp [splitStrF, hso]
      | some pr =>
        have hlt : pr.2.length < s.length := splitOnce_len (a := pr.1) (b := pr.2) (by rw [hso])
        simp only [splitStrF, hso]
        rw [ih f2b (by omega) (by omega)]

theorem splitStr_of_none {c : Char} {t : Str} {s : Str}
    (h : splitOnce (c :: t) s = none) : splitStr c t s = [s] := by
  unfold splitStr
  simp [splitStrF, h]

theorem splitStr_of_some {c : Char} {t : Str} {s a b : Str}
    (h : splitOnce (c :: t) s = some (a, b)) :
    splitStr c t s = a :: splitStr c t b := by
  have hlt : b.length < s.length := splitOnce_len h
  have h1 : splitStrF (s.length + 1) c t s = a :: splitStrF s.length c t b := by
    simp [splitStrF, h]
  unfold splitStr
  rw [h1]
  exact congrArg (List.cons a) (splitStrF_fuel s.length (b.length + 1) hlt (Nat.lt_succ_self _))

theorem splitStr_ne_nil (c : Char) (t s : Str) : splitStr c t s ≠ [] := by
  cases hso : splitOnce (c :: t) s with
  | none => rw [splitStr_of_none hso]; simp
  | some pr =>
    rw [splitStr_of_some (a := pr.1) (b := pr.2) (by rw [hso])]
    simp

theorem joinCRLF_cons (l : Str) (ls : List Str) : ∃ r : Str, joinCRLF (l :: ls) = l ++ r := by
  cases ls with
  | nil => exact ⟨[], by simp [joinCRLF]⟩
  | cons l2 ls2 => exact ⟨'\r' :: '\n' :: joinCRLF (l2 :: ls2), rfl⟩

theorem crlfNotPrefixAppend {s2 : Str} (rest : Str) (h2 : s2 ≠ []) (hc : ('\r' : Char) ∉ s2) :
    (['\r', '\n'] : Str).isPrefixOf (s2 ++ rest) = false := by
  cases s2 with
  | nil => exact absurd rfl h2
  | cons c cs =>
    have hne : ('\r' : Char) ≠ c := fun hh => hc (by rw [hh]; exact List.mem_cons_self c cs)
    show (('\r' : Char) == c && (['\n'] : Str).isPrefixOf (cs ++ rest)) = false
    rw [beq_eq_false_iff_ne.2 hne]
    simp

theorem splitOnce_crlf2_skip {s : Str} (h : (['\r', '\n'] : Str).isPrefixOf s = false) :
    splitOnce crlf2 ('\r' :: '\n' :: s) =
      (splitOnce crlf2 s).map (fun pr => ('\r' :: '\n' :: pr.1, pr.2)) := by
  have h1 : crlf2.isPrefixOf ('\r' :: '\n' :: s) = false := by
    show (('\r' : Char) == '\r' && (('\n' : Char) == '\n' &&
      (['\r', '\n'] : Str).isPrefixOf s)) = false
    simp [h]
  have h2 : crlf2.isPrefixOf ('\n' :: s) = false := by
    show (('\r' : Char) == '\n' && (['\n', '\r', '\n'] : Str).isPrefixOf s) = false
    rw [beq_eq_false_iff_ne.2 (by decide : ('\r' : Char) ≠ '\n')]
    simp
  rw [splitOnce_neg h1, splitOnce_neg h2]
  cases splitOnce crlf2 s <;> simp

theorem splitOnce_crlf2_self (body : Str) : splitOnce crlf2 (crlf2 ++ body) = some ([], body) :=
  splitOnce_self '\r' ['\n', '\r', '\n'] body

theorem splitOnce_crlf2_clean (a : Str) {s : Str} (h : ('\r' : Char) ∉ a) :
    splitOnce crlf2 (a ++ s) = (splitOnce crlf2 s).map (fun pr => (a ++ pr.1, pr.2)) :=
  splitOnce_clean a h

theorem splitOnce_crlf2_join (lines : List Str) (body : Str)
    (hr : ∀ l ∈ lines, ('\r' : Char) ∉ l) (hn : ∀ l ∈ lines, l ≠ []) :
    splitOnce crlf2 (joinCRLF lines ++ crlf2 ++ body) = some (joinCRLF lines, body) := by
  induction lines with
  | nil =>
    simpa [joinCRLF] using splitOnce_crlf2_self body
  | cons l ls ih =>
    cases ls with
    | nil =>
      have hl : ('\r' : Char) ∉ l := hr l (by simp)
      simp only [joinCRLF]
      rw [List.append_assoc, splitOnce_crlf2_clean l hl, splitOnce_crlf2_self body]
      simp
    | cons l2 ls2 =>
      have hl : ('\r' : Char) ∉ l := hr l (by simp)
      have hl2 : ('\r' : Char) ∉ l2 := hr l2 (by simp)
      have hl2n : l2 ≠ [] := hn l2 (by simp)
      obtain ⟨r, hJ⟩ := joinCRLF_cons l2 ls2
      have hnp : (['\r', '\n'] : Str).isPrefixOf
          (joinCRLF (l2 :: ls2) ++ (crlf2 ++ body)) = false := by
        rw [hJ, List.append_assoc]
        exact crlfNotPrefixAppend (r ++ (crlf2 ++ body)) hl2n hl2
      have ih2 : splitOnce crlf2 (joinCRLF (l2 :: ls2) ++ (crlf2 ++ body))
          = some (joinCRLF (l2 :: ls2), body) := by
        rw [← List.append_assoc]
        exact ih (fun x hm => hr x (List.mem_cons_of_mem _ hm))
          (fun x hm => hn x (List.mem_cons_of_mem _ hm))
      have hJexp : joinCRLF (l :: l2 :: ls2)
          = l ++ ('\r' :: '\n' :: joinCRLF (l2 :: ls2)) := rfl
      rw [hJexp, List.append_assoc, List.append_assoc, List.cons_append, List.cons_append,
        splitOnce_crlf2_clean l hl, splitOnce_crlf2_skip hnp, ih2]
      simp

theorem splitStr_crlf_join (lines : List Str) (h0 : lines ≠ [])
    (hr : ∀ l ∈ lines, ('\r' : Char) ∉ l) :
    splitStr '\r' ['\n'] (joinCRLF lines) = lines := by
  induction lines with
  | nil => exact absurd rfl h0
  | cons l ls ih =>
    cases ls with
    | nil =>
      have hl : ('\r' : Char) ∉ l := hr l (by simp)
      simp only [joinCRLF]
      exact splitStr_of_none (splitOnce_not_mem hl)
    | cons l2 ls2 =>
      have hl : ('\r' : Char) ∉ l := hr l (by simp)
      have hself : splitOnce ('\r' :: ['\n']) ('\r' :: '\n' :: joinCRLF (l2 :: ls2))
          = some ([], joinCRLF (l2 :: ls2)) := splitOnce_self '\r' ['\n'] _
      have hso : splitOnce ('\r' :: ['\n']) (joinCRLF (l :: l2 :: ls2))
          = some (l, joinCRLF (l2 :: ls2)) := by
        simp only [joinCRLF]
        rw [splitOnce_clean l hl, hself]
        simp
      rw [splitStr_of_some hso,
        ih (by simp) (fun x hm => hr x (List.mem_cons_of_mem _ hm))]

theorem splitStr_token {c : Char} {a : Str} (s : Str) (h : c ∉ a) :
    splitStr c [] (a ++ c :: s) = a :: splitStr c [] s := by
  have hself : splitOnce (c :: []) (c :: s) = some ([], s) := splitOnce_self c [] s
  have hso : splitOnce (c :: []) (a ++ c :: s) = some (a, s) := by
    rw [splitOnce_clean a h, hself]
    simp
  exact splitStr_of_some hso

theorem splitStr_single {c : Char} {a : Str} (h : c ∉ a) : splitStr c [] a = [a] :=
  splitStr_of_none (splitOnce_not_mem h)

theorem dropWhile_of_head {p : Char → Bool} {v : Str}
    (h : ∀ ch : Char, v.head? = some ch → p ch = false) : v.dropWhile p = v := by
  cases v with
  | nil => rfl
  | cons c cs =>
    have hc := h c rfl
    simp [List.dropWhile_cons, hc]

theorem trim_of_noEdge {v : Str} (h : noEdgeWS v = true) : trim (' ' :: v) = v := by
  unfold noEdgeWS at h
  rw [Bool.and_eq_true] at h
  obtain ⟨h1, h2⟩ := h
  have hhead : ∀ ch : Char, v.head? = some ch → rustIsWhitespace ch = false := by
    intro ch hch
    rw [hch] at h1
    simpa using h1
  have hlast : ∀ ch : Char, v.getLast? = some ch → rustIsWhitespace ch = false := by
    intro ch hch
    rw [hch] at h2
    simpa using h2
  have hsp : rustIsWhitespace ' ' = true := by decide
  unfold trim
  rw [List.dropWhile_cons, hsp]
  simp only [if_true]
  rw [dropWhile_of_head hhead]
  rw [dropWhile_of_head (fun ch hch => hlast ch (by rwa [List.head?_reverse] at hch))]
  exact List.reverse_reverse v

theorem insertHeader_append {m : List (Str × Str)} {k : Str} (v : Str)
    (h : k ∉ m.map Prod.fst) : insertHeader m k v = m ++ [(k, v)] := by
  induction m with
  | nil => rfl
  | cons kv rest ih =>
    obtain ⟨k2, v2⟩ := kv
    have hk : ¬ k2 = k := fun hh => h (by simp [hh])
    simp only [insertHeader, if_neg hk]
    rw [ih (fun hm => h (List.mem_cons_of_mem _ hm))]
    rfl

theorem lookupHeader_insert (m : List (Str × Str)) (k v k2 : Str) :
    lookupHeader k2 (insertHeader m k v) = if k = k2 then some v else lookupHeader k2 m := by
  induction m with
  | nil => simp [insertHeader, lookupHeader]
  | cons kv rest ih =>
    obtain ⟨k3, v3⟩ := kv
    by_cases h3 : k3 = k
    · subst h3
      by_cases hk2 : k3 = k2 <;> simp [insertHeader, lookupHeader, hk2]
    · by_cases hk3 : k3 = k2
      · have hk : ¬ k = k2 := fun hh => h3 (hk3.trans hh.symm)
        subst hk3
        simp [insertHeader, if_neg h3, lookupHeader, if_neg hk]
      · simp [insertHeader, if_neg h3, lookupHeader, hk3, ih]

theorem headerStep_hline {acc : List (Str × Str)} {k : Str} (v : Str)
    (hk : (':' : Char) ∉ k) (hnd : k ∉ acc.map Prod.fst) (hv : noEdgeWS v = true) :
    headerStep acc (hline (k, v)) = acc ++ [(k, v)] := by
  have hself : splitOnce (':' :: []) (':' :: ' ' :: v) = some ([], ' ' :: v) :=
    splitOnce_self ':' [] (' ' :: v)
  have hso : splitOnce [':'] (hline (k, v)) = some (k, ' ' :: v) := by
    show splitOnce (':' :: []) (k ++ ':' :: ' ' :: v) = some (k, ' ' :: v)
    rw [splitOnce_clean k hk, hself]
    simp
  unfold headerStep
  rw [hso]
  show insertHeader acc k (trim (' ' :: v)) = acc ++ [(k, v)]
  rw [trim_of_noEdge hv, insertHeader_append v hnd]

theorem parse_headers_hlines : ∀ (hs acc : List (Str × Str)),
    ((acc ++ hs).map Prod.fst).Nodup →
    (∀ kv ∈ hs, (':' : Char) ∉ kv.1 ∧ noEdgeWS kv.2 = true) →
    List.foldl headerStep acc (hs.map hline) = acc ++ hs := by
  intro hs
  induction hs with
  | nil => intro acc _ _; simp
  | cons kv rest ih =>
    intro acc hnd hok
    obtain ⟨k, v⟩ := kv
    obtain ⟨hk, hv⟩ := hok (k, v) (by simp)
    have hknotin : k ∉ acc.map Prod.fst := by
      intro hmem
      rw [List.map_append] at hnd
      exact (List.nodup_append.1 hnd).2.2 hmem (by simp)
    rw [List.map_cons, List.foldl_cons, headerStep_hline v hk hknotin hv]
    have hnd2 : (((acc ++ [(k, v)]) ++ rest).map Prod.fst).Nodup := by
      rw [List.append_assoc]
      simpa using hnd
    rw [ih (acc ++ [(k, v)]) hnd2 (fun kv2 hm => hok kv2 (by simp [hm]))]
    simp

theorem parse_headers_round (hs : List (Str × Str)) (hnd : (hs.map Prod.fst).Nodup)
    (hok : ∀ kv ∈ hs, (':' : Char) ∉ kv.1 ∧ noEdgeWS kv.2 = true) :
    parse_headers (hs.map hline) = hs := by
  have := parse_headers_hlines hs [] (by simpa using hnd) hok
  simpa [parse_headers] using this

theorem orO_assoc (a b c : Option Str) : orO (orO a b) c = orO a (orO b c) := by
  cases a <;> rfl

theorem orO_none (a : Option Str) : orO a none = a := by
  cases a <;> rfl

theorem lookupHeader_append (k : Str) (l1 l2 : List (Str × Str)) :
    lookupHeader k (l1 ++ l2) = orO (lookupHeader k l1) (lookupHeader k l2) := by
  induction l1 with
  | nil => rfl
  | cons kv rest ih =>
    obtain ⟨k2, v⟩ := kv
    by_cases h : k2 = k
    · simp [lookupHeader, h, orO]
    · simp [lookupHeader, h, ih, orO]

theorem lookup_foldl (k : Str) : ∀ (lines : List Str) (acc : List (Str × Str)),
    lookupHeader k (List.foldl headerStep acc lines) =
      orO (lookupHeader k ((lines.filterMap headerKV).reverse)) (lookupHeader k acc) := by
  intro lines
  induction lines with
  | nil => intro acc; rfl
  | cons line rest ih =>
    intro acc
    rw [List.foldl_cons]
    cases hkv : headerKV line with
    | none =>
      have hstep : headerStep acc line = acc := by
        unfold headerKV at hkv
        unfold headerStep
        cases hso : splitOnce [':'] line with
        | none => rfl
        | some pr => rw [hso] at hkv; simp at hkv
      rw [hstep, ih, List.filterMap_cons_none hkv]
    | some pr =>
      obtain ⟨k1, v1⟩ := pr
      have hstep : headerStep acc line = insertHeader acc k1 v1 := by
        unfold headerKV at hkv
        unfold headerStep
        cases hso : splitOnce [':'] line with
        | none => rw [hso] at hkv; cases hkv
        | some pr2 =>
          rw [hso] at hkv
          simp only [Option.map_some', Option.some.injEq, Prod.mk.injEq] at hkv
          show insertHeader acc pr2.1 (trim pr2.2) = insertHeader acc k1 v1
          rw [hkv.1, hkv.2]
      rw [hstep, ih, List.filterMap_cons_some hkv, List.reverse_cons,
        lookupHeader_append, lookupHeader_insert, orO_assoc]
      have hsingle : lookupHeader k [(k1, v1)] = if k1 = k then some v1 else none := rfl
      rw [hsingle]
      by_cases hk : k1 = k <;> simp [orO, hk]

theorem lookup_parse_headers (lines : List Str) (k : Str) :
    lookupHeader k (parse_headers lines) =
      lookupHeader k ((lines.filterMap headerKV).reverse) := by
  unfold parse_headers
  rw [lookup_foldl k lines []]
  exact orO_none _

theorem splitOnce_spec (d : Char) (t : Str) : ∀ (s a b : Str),
    splitOnce (d :: t) s = some (a, b) →
    s = a ++ (d :: t) ++ b ∧ ∀ a2 b2 : Str, s = a2 ++ (d :: t) ++ b2 → a.length ≤ a2.length := by
  intro s
  induction s with
  | nil => intro a b h; rw [splitOnce_nil] at h; cases h
  | cons c s2 ih =>
    intro a b h
    cases hp : (d :: t).isPrefixOf (c :: s2) with
    | true =>
      rw [splitOnce_pos hp] at h
      obtain ⟨r, hr⟩ := (isPrefixOf_iff _ _).1 hp
      obtain ⟨h1, h2⟩ := Prod.mk.inj (Option.some.inj h)
      subst h1
      subst h2
      constructor
      · rw [hr, List.drop_left]
        simp
      · intro a2 b2 _
        exact Nat.zero_le _
    | false =>
      rw [splitOnce_neg hp] at h
      cases hso : splitOnce (d :: t) s2 with
      | none => rw [hso] at h; cases h
      | some pr =>
        rw [hso] at h
        simp only [Option.map_some', Option.some.injEq, Prod.mk.injEq] at h
        obtain ⟨ha, hb⟩ := h
        obtain ⟨hspec, hmin⟩ := ih pr.1 pr.2 (by rw [hso])
        constructor
        · rw [← ha, ← hb, hspec]
          simp
        · intro a2 b2 hs
          cases a2 with
          | nil =>
            exfalso
            simp only [List.nil_append] at hs
            have : (d :: t).isPrefixOf (c :: s2) = true :=
              (isPrefixOf_iff _ _).2 ⟨b2, by simp [hs]⟩
            rw [hp] at this
            cases this
          | cons c2 a3 =>
            have hs2 : s2 = a3 ++ (d :: t) ++ b2 := (List.cons.inj hs).2
            have := hmin a3 b2 hs2
            rw [← ha]
            simp only [List.length_cons]
            omega

theorem splitOnce_none_iff (d : Char) (t : Str) : ∀ s : Str,
    splitOnce (d :: t) s = none ↔ ∀ x y : Str, s ≠ x ++ (d :: t) ++ y := by
  intro s
  induction s with
  | nil =>
    rw [splitOnce_nil]
    simp
  | cons c s2 ih =>
    cases hp : (d :: t).isPrefixOf (c :: s2) with
    | true =>
      rw [splitOnce_pos hp]
      obtain ⟨r, hr⟩ := (isPrefixOf_iff _ _).1 hp
      constructor
      · intro h; cases h
      · intro h
        exact absurd (by simp [hr]) (h [] r)
    | false =>
      rw [splitOnce_neg hp]
      constructor
      · intro h x y hxy
        cases x with
        | nil =>
          simp only [List.nil_append] at hxy
          have : (d :: t).isPrefixOf (c :: s2) = true :=
            (isPrefixOf_iff _ _).2 ⟨y, hxy⟩
          rw [hp] at this
          cases this
        | cons c2 x2 =>
          have hx2 : s2 = x2 ++ (d :: t) ++ y := (List.cons.inj hxy).2
          cases hso : splitOnce (d :: t) s2 with
          | none => exact (ih.1 hso) x2 y hx2
          | some pr => rw [hso] at h; cases h
      · intro h
        cases hso : splitOnce (d :: t) s2 with
        | none => rfl
        | some pr =>
          exfalso
          have hspec := (splitOnce_spec d t s2 pr.1 pr.2 (by rw [hso])).1
          exact h (c :: pr.1) pr.2 (by simp [hspec])

theorem utf8Len_append (a b : Str) : utf8Len (a ++ b) = utf8Len a + utf8Len b := by
  unfold utf8Len
  rw [List.map_append, List.sum_append]

theorem digitChar_val (k : Nat) (h : k < 10) : (Nat.digitChar k).toNat - 48 = k := by
  interval_cases k <;> decide

theorem natToDigitsF_fuel (f1 f2 : Nat) : ∀ n : Nat, n < f1 → n < f2 →
    natToDigitsF f1 n = natToDigitsF f2 n := by
  induction f1 generalizing f2 with
  | zero => intro n h1; exact absurd h1 (Nat.not_lt_zero _)
  | succ f ih =>
    intro n h1 h2
    cases f2 with
    | zero => exact absurd h2 (Nat.not_lt_zero _)
    | succ f2b =>
      by_cases hn : n < 10
      · simp [natToDigitsF, hn]
      · have hd : n / 10 < n := Nat.div_lt_self (by omega) (by omega)
        simp only [natToDigitsF, if_neg hn]
        rw [ih f2b (n / 10) (by omega) (by omega)]

theorem natToDigits_eq (n : Nat) : natToDigits n =
    if n < 10 then [Nat.digitChar n]
    else natToDigits (n / 10) ++ [Nat.digitChar (n % 10)] := by
  by_cases hn : n < 10
  · simp [natToDigits, natToDigitsF, hn]
  · have hd : n / 10 < n := Nat.div_lt_self (by omega) (by omega)
    rw [if_neg hn]
    show natToDigitsF (n + 1) n = natToDigitsF (n / 10 + 1) (n / 10) ++ [Nat.digitChar (n % 10)]
    rw [show natToDigitsF (n + 1) n
        = natToDigitsF n (n / 10) ++ [Nat.digitChar (n % 10)] from by simp [natToDigitsF, hn]]
    rw [natToDigitsF_fuel n (n / 10 + 1) (n / 10) (by omega) (by omega)]

theorem digitsVal_append_digit (a : Str) (d : Char) :
    digitsVal (a ++ [d]) = 10 * digitsVal a + (d.toNat - 48) := by
  unfold digitsVal
  rw [List.foldl_append]
  rfl

theorem digitsVal_natToDigits (n : Nat) : digitsVal (natToDigits n) = n := by
  induction n using Nat.strong_induction_on with
  | _ n ih =>
    rw [natToDigits_eq]
    by_cases hn : n < 10
    · simp only [if_pos hn]
      show 10 * 0 + ((Nat.digitChar n).toNat - 48) = n
      rw [digitChar_val n hn]
      omega
    · have hd : n / 10 < n := Nat.div_lt_self (by omega) (by omega)
      simp only [if_neg hn]
      rw [digitsVal_append_digit, ih (n / 10) hd, digitChar_val (n % 10) (Nat.mod_lt _ (by omega))]
      omega

theorem new_of_none {raw : Str} (h : splitOnce crlf2 raw = none) :
    HttpRequest.new raw = Except.error DecodeError.MalformedRequest := by
  unfold HttpRequest.new
  rw [h]

theorem new_of_some {raw hb body : Str} (h : splitOnce crlf2 raw = some (hb, body)) :
    HttpRequest.new raw = decodeParts hb body := by
  unfold HttpRequest.new
  rw [h]

theorem decodeParts_ok_content {hdrs body : Str} {req : HttpRequest}
    (h : decodeParts hdrs body = Except.ok req) : req.content = parse_content body := by
  unfold decodeParts at h
  split at h
  · cases h
  · split at h
    · cases h
    · rw [← Except.ok.inj h]

theorem methodToken_ne_nil (m : HttpMethod) : methodToken m ≠ [] := by
  cases m <;> decide

theorem not_mem_methodToken_r (m : HttpMethod) : ('\r' : Char) ∉ methodToken m := by
  cases m <;> decide

theorem not_mem_methodToken_sp (m : HttpMethod) : (' ' : Char) ∉ methodToken m := by
  cases m <;> decide

theorem methodFromStr_token (m : HttpMethod) : methodFromStr (methodToken m) = Except.ok m := by
  cases m <;> decide

theorem splitStr_start_line (m : HttpMethod) (p : Str) (hp1 : (' ' : Char) ∉ p) :
    splitStr ' ' [] (methodToken m ++ ' ' :: p ++ ' ' :: "HTTP/1.1".toList)
      = [methodToken m, p, "HTTP/1.1".toList] := by
  have e : (methodToken m ++ ' ' :: p ++ ' ' :: "HTTP/1.1".toList)
      = methodToken m ++ (' ' :: (p ++ ' ' :: "HTTP/1.1".toList)) := by
    simp [List.append_assoc]
  rw [e]
  have t1 : splitStr ' ' [] (methodToken m ++ ' ' :: (p ++ ' ' :: "HTTP/1.1".toList))
      = methodToken m :: splitStr ' ' [] (p ++ ' ' :: "HTTP/1.1".toList) :=
    splitStr_token _ (not_mem_methodToken_sp m)
  rw [t1, splitStr_token _ hp1,
    splitStr_single (by decide : (' ' : Char) ∉ "HTTP/1.1".toList)]

/-- C1: for every Response, encode produces exactly
`HTTP/1.1 <reason>\r\nContent-Type: <mime>\r\nContent-Length: <len>\r\n\r\n<body>`
when content is present (Content-Type before Content-Length, no other
headers) and exactly `HTTP/1.1 <reason>\r\n\r\n` when content is absent,
where the reason phrase includes the numeric code: `200 OK`,
`201 Created`, `404 Not Found`. -/
theorem spec_c1 (r : HttpResponse) :
    (r.content = none →
      encodeResponse r =
        "HTTP/1.1 ".toList ++ canonical_reason r.status_code ++ "\r\n".toList ++ "\r\n".toList)
  ∧ (∀ c : HttpContent, r.content = some c →
      encodeResponse r =
        "HTTP/1.1 ".toList ++ canonical_reason r.status_code ++ "\r\n".toList ++
          "Content-Type: ".toList ++ as_str c.content_type ++ "\r\n".toList ++
          "Content-Length: ".toList ++ natToDigits (utf8Len c.content) ++ "\r\n".toList ++
          "\r\n".toList ++ c.content)
  ∧ canonical_reason HttpStatusCode.Ok = "200 OK".toList
  ∧ canonical_reason HttpStatusCode.Created = "201 Created".toList
  ∧ canonical_reason HttpStatusCode.NotFound = "404 Not Found".toList := by
  have e1 : ("\r\nContent-Type: ".toList : Str) = "\r\n".toList ++ "Content-Type: ".toList := by
    decide
  have e2 : ("\r\nContent-Length: ".toList : Str) = "\r\n".toList ++ "Content-Length: ".toList := by
    decide
  have e3 : ("\r\n\r\n".toList : Str) = "\r\n".toList ++ "\r\n".toList := by decide
  refine ⟨?_, ?_, rfl, rfl, rfl⟩
  · intro hn
    unfold encodeResponse
    rw [hn, e3, ← List.append_assoc]
  · intro c hc
    unfold encodeResponse
    rw [hc, e1, e2, e3]
    simp [List.append_assoc]

/-- C4: for every Response with content, the emitted Content-Length
digits denote exactly the UTF-8 byte length of the body (`String::len`),
not its character count, and the byte length of the whole encoded output
is the sum of the byte lengths of its parts, the body contributing
exactly its byte length. -/
theorem spec_c4 (st : HttpStatusCode) (c : HttpContent) :
    encodeResponse { status_code := st, content := some c }
      = ("HTTP/1.1 ".toList ++ canonical_reason st ++ "\r\nContent-Type: ".toList ++
          as_str c.content_type ++ "\r\nContent-Length: ".toList) ++
        natToDigits (utf8Len c.content) ++ "\r\n\r\n".toList ++ c.content
  ∧ digitsVal (natToDigits (utf8Len c.content)) = utf8Len c.content
  ∧ utf8Len (encodeResponse { status_code := st, content := some c })
      = utf8Len ("HTTP/1.1 ".toList ++ canonical_reason st ++ "\r\nContent-Type: ".toList ++
          as_str c.content_type ++ "\r\nContent-Length: ".toList)
        + utf8Len (natToDigits (utf8Len c.content)) + utf8Len ("\r\n\r\n".toList : Str)
        + utf8Len c.content := by
  have h1 : encodeResponse { status_code := st, content := some c }
      = ("HTTP/1.1 ".toList ++ canonical_reason st ++ "\r\nContent-Type: ".toList ++
          as_str c.content_type ++ "\r\nContent-Length: ".toList) ++
        natToDigits (utf8Len c.content) ++ "\r\n\r\n".toList ++ c.content := by
    unfold encodeResponse
    simp [List.append_assoc]
  refine ⟨h1, digitsVal_natToDigits _, ?_⟩
  rw [h1]
  simp only [utf8Len_append]

/-- C7: Method::parse succeeds exactly on the strings `GET` and `POST`
(case-sensitively), returning the matching method, and fails with
UnknownMethod on every other token; consequently a decode whose
start-line method token is unrecognized fails with UnknownMethod instead
of returning a Request. -/
theorem spec_c7 :
    (∀ (s : Str) (m : HttpMethod), methodFromStr s = Except.ok m ↔
        ((s = "GET".toList ∧ m = HttpMethod.Get) ∨ (s = "POST".toList ∧ m = HttpMethod.Post)))
  ∧ (∀ s : Str, s ≠ "GET".toList → s ≠ "POST".toList →
      methodFromStr s = Except.error DecodeError.UnknownMethod)
  ∧ (∀ (raw hb body l0 t0 : Str) (ls ts : List Str),
      splitOnce crlf2 raw = some (hb, body) →
      splitStr '\r' ['\n'] hb = l0 :: ls →
      splitStr ' ' [] l0 = t0 :: ts →
      t0 ≠ "GET".toList → t0 ≠ "POST".toList →
      HttpRequest.new raw = Except.error DecodeError.UnknownMethod) := by
  refine ⟨?_, ?_, ?_⟩
  · intro s m
    by_cases h1 : s = "GET".toList
    · subst h1; cases m <;> decide
    · by_cases h2 : s = "POST".toList
      · subst h2; cases m <;> decide
      · have he : methodFromStr s = Except.error DecodeError.UnknownMethod := by
          unfold methodFromStr
          rw [if_neg h1, if_neg h2]
        rw [he]
        constructor
        · intro hh; cases hh
        · rintro (⟨hs, _⟩ | ⟨hs, _⟩)
          · exact absurd hs h1
          · exact absurd hs h2
  · intro s h1 h2
    unfold methodFromStr
    rw [if_neg h1, if_neg h2]
  · intro raw hb body l0 t0 ls ts hsp hlines htok h1 h2
    have hm : methodFromStr t0 = Except.error DecodeError.UnknownMethod := by
      unfold methodFromStr
      rw [if_neg h1, if_neg h2]
    rw [new_of_some hsp]
    unfold decodeParts
    rw [hlines]
    have hps : parse_start_line l0 = Except.error DecodeError.UnknownMethod := by
      unfold parse_start_line
      rw [htok]
      simp only [hm]
    simp only [hps]

/-- C7 witness: decoding a request whose method token is the unrecognized
lower-case `get` fails with UnknownMethod. -/
theorem spec_c7_witness :
    HttpRequest.new ("get / HTTP/1.1\r\n\r\n".toList) = Except.error DecodeError.UnknownMethod :=
  spec_c7.2.2 ("get / HTTP/1.1\r\n\r\n".toList) ("get / HTTP/1.1".toList) []
    ("get / HTTP/1.1".toList) ("get".toList) [] ["/".toList, "HTTP/1.1".toList]
    (by decide) (by decide) (by decide) (by decide) (by decide)

/-- C8: ContentType::mime and ContentType::parse are a total/partial
inverse pair: parse of each canonical MIME string returns the matching
constructor, parse succeeds exactly on the three canonical strings by
exact match, and fails with UnknownContentType on every other string. -/
theorem spec_c8 :
    (∀ ct : HttpContentType, ctFromStr (as_str ct) = Except.ok ct)
  ∧ (∀ (s : Str) (ct : HttpContentType), ctFromStr s = Except.ok ct ↔
      ((s = "application/json".toList ∧ ct = HttpContentType.ApplicationJson)
        ∨ (s = "application/octet-stream".toList ∧ ct = HttpContentType.ApplicationOctetStream)
        ∨ (s = "text/plain".toList ∧ ct = HttpContentType.TextPlain)))
  ∧ (∀ s : Str, s ≠ "application/json".toList → s ≠ "application/octet-stream".toList →
      s ≠ "text/plain".toList → ctFromStr s = Except.error DecodeError.UnknownContentType) := by
  refine ⟨?_, ?_, ?_⟩
  · intro ct; cases ct <;> decide
  · intro s ct
    by_cases h1 : s = "application/json".toList
    · subst h1; cases ct <;> decide
    · by_cases h2 : s = "application/octet-stream".toList
      · subst h2; cases ct <;> decide
      · by_cases h3 : s = "text/plain".toList
        · subst h3; cases ct <;> decide
        · have he : ctFromStr s = Except.error DecodeError.UnknownContentType := by
            unfold ctFromStr
            rw [if_neg h1, if_neg h2, if_neg h3]
          rw [he]
          constructor
          · intro hh; cases hh
          · rintro (⟨hs, _⟩ | ⟨hs, _⟩ | ⟨hs, _⟩)
            · exact absurd hs h1
            · exact absurd hs h2
            · exact absurd hs h3
  · intro s h1 h2 h3
    unfold ctFromStr
    rw [if_neg h1, if_neg h2, if_neg h3]

/-- C8 witness: parsing the MIME string `text/html` fails with
UnknownContentType. -/
theorem spec_c8_witness :
    ctFromStr ("text/html".toList) = Except.error DecodeError.UnknownContentType :=
  spec_c8.2.2 ("text/html".toList) (by decide) (by decide) (by decide)

/-- C1 witness: encoding a 404 response without content yields exactly
the not-found wire bytes. -/
theorem spec_c1_witness :
    encodeResponse { status_code := HttpStatusCode.NotFound, content := none }
      = "HTTP/1.1 404 Not Found\r\n\r\n".toList := by
  have h := (spec_c1 { status_code := HttpStatusCode.NotFound, content := none }).1 rfl
  exact h.trans (by decide)

/-- C4 witness: a body of the single two-byte character `é` is encoded
with Content-Length 2, the byte count, not the character count 1. -/
theorem spec_c4_witness :
    encodeResponse { status_code := HttpStatusCode.Ok,
                     content := some { content := ['é'],
                                       content_type := HttpContentType.TextPlain } }
      = "HTTP/1.1 200 OK\r\nContent-Type: text/plain\r\nContent-Length: 2\r\n\r\né".toList := by
  have h := (spec_c4 HttpStatusCode.Ok
    { content := ['é'], content_type := HttpContentType.TextPlain }).1
  exact h.trans (by decide)

/-- C3: whenever decode succeeds, the resulting content is determined by
the raw body alone: an empty raw body gives absent content, a non-empty
one gives content carrying exactly the body bytes and tagged TextPlain,
regardless of any Content-Type header in the request. -/
theorem spec_c3 (raw hb body : Str) (req : HttpRequest)
    (hsp : splitOnce crlf2 raw = some (hb, body))
    (hok : HttpRequest.new raw = Except.ok req) :
    req.content = if body = [] then none
      else some { content := body, content_type := HttpContentType.TextPlain } := by
  rw [new_of_some hsp] at hok
  rw [decodeParts_ok_content hok]
  rfl

/-- C3 witness: a POST declaring Content-Type application/json still
decodes to content tagged TextPlain carrying the raw body bytes. -/
theorem spec_c3_witness :
    ({ method := HttpMethod.Post, path := "/x".toList,
       headers := [("Content-Type".toList, "application/json".toList)],
       content := some { content := "hi".toList, content_type := HttpContentType.TextPlain } }
        : HttpRequest).content
      = if ("hi".toList : Str) = [] then none
        else some { content := "hi".toList, content_type := HttpContentType.TextPlain } :=
  spec_c3 ("POST /x HTTP/1.1\r\nContent-Type: application/json\r\n\r\nhi".toList)
    ("POST /x HTTP/1.1\r\nContent-Type: application/json".toList) ("hi".toList)
    { method := HttpMethod.Post, path := "/x".toList,
      headers := [("Content-Type".toList, "application/json".toList)],
      content := some { content := "hi".toList, content_type := HttpContentType.TextPlain } }
    (by decide) (by decide)

/-- C5: header parsing looks up as the last line (in order) that
contains a `:`, keyed by the part before the first `:` verbatim with
the value trimmed; a line with a `:` is split at the first `:` with the
key verbatim and the value trimmed, and a line without `:` contributes
nothing. -/
theorem spec_c5 :
    (∀ (lines : List Str) (k : Str),
        lookupHeader k (parse_headers lines)
          = lookupHeader k ((lines.filterMap headerKV).reverse))
  ∧ (∀ key rest : Str, (':' : Char) ∉ key →
        headerKV (key ++ ':' :: rest) = some (key, trim rest))
  ∧ (∀ line : Str, (':' : Char) ∉ line → headerKV line = none) := by
  refine ⟨fun lines k => lookup_parse_headers lines k, ?_, ?_⟩
  · intro key rest hk
    unfold headerKV
    have hself : splitOnce (':' :: []) (':' :: rest) = some ([], rest) :=
      splitOnce_self ':' [] rest
    rw [splitOnce_clean key hk, hself]
    simp
  · intro line hl
    unfold headerKV
    rw [splitOnce_not_mem hl]
    rfl

/-- C5 witness: a line without a colon is skipped and the later of two
occurrences of the same key wins. -/
theorem spec_c5_witness :
    lookupHeader ("A".toList)
      (parse_headers ["A: 1".toList, "junk".toList, "A: 2".toList]) = some ("2".toList) :=
  (spec_c5.1 ["A: 1".toList, "junk".toList, "A: 2".toList] ("A".toList)).trans (by decide)

/-- C6: an input with no occurrence of the blank-line separator CRLF CRLF
fails to decode with MalformedRequest (the split being none exactly when
no occurrence exists); when the separator occurs, decode proceeds on the
parts of the split, which is taken at the first occurrence: the input is
header block, separator, body, and no shorter header block admits such a
split. -/
theorem spec_c6 (raw : Str) :
    (splitOnce crlf2 raw = none ↔ ∀ x y : Str, raw ≠ x ++ crlf2 ++ y)
  ∧ (splitOnce crlf2 raw = none →
      HttpRequest.new raw = Except.error DecodeError.MalformedRequest)
  ∧ (∀ hb body : Str, splitOnce crlf2 raw = some (hb, body) →
      HttpRequest.new raw = decodeParts hb body
        ∧ raw = hb ++ crlf2 ++ body
        ∧ ∀ hb2 body2 : Str, raw = hb2 ++ crlf2 ++ body2 → hb.length ≤ hb2.length) := by
  refine ⟨?_, ?_, ?_⟩
  · exact splitOnce_none_iff '\r' ['\n', '\r', '\n'] raw
  · intro h
    exact new_of_none h
  · intro hb body hsp
    refine ⟨new_of_some hsp, ?_, ?_⟩
    · exact (splitOnce_spec '\r' ['\n', '\r', '\n'] raw hb body hsp).1
    · exact (splitOnce_spec '\r' ['\n', '\r', '\n'] raw hb body hsp).2

/-- C6 witness: a buffer with no `\r\n\r\n` fails with MalformedRequest. -/
theorem spec_c6_witness :
    HttpRequest.new ("GET / HTTP/1.1".toList) = Except.error DecodeError.MalformedRequest :=
  (spec_c6 ("GET / HTTP/1.1".toList)).2.1 (by decide)

/-- C9 counterexample: the start line `FOO` has fewer than 2
space-delimited tokens, yet decode fails with UnknownMethod, not with
MalformedRequest as the claim states. -/
theorem spec_c9_cex :
    HttpRequest.new ("FOO\r\n\r\n".toList) = Except.error DecodeError.UnknownMethod
  ∧ HttpRequest.new ("FOO\r\n\r\n".toList) ≠ Except.error DecodeError.MalformedRequest := by
  decide

/-- C9 amended: a start line with fewer than 2 space-delimited tokens
makes decode fail rather than return a Request — with MalformedRequest
when the single token is a recognized method, and with UnknownMethod
otherwise, since the method token is checked first; a start line with at
least 2 tokens has token 0 parsed as the method and token 1 taken
verbatim as the path. -/
theorem spec_c9 (raw hb body l0 : Str) (ls : List Str)
    (h1 : splitOnce crlf2 raw = some (hb, body))
    (h2 : splitStr '\r' ['\n'] hb = l0 :: ls) :
    (∀ t0 : Str, splitStr ' ' [] l0 = [t0] →
        HttpRequest.new raw = Except.error
          (match methodFromStr t0 with
            | Except.ok _ => DecodeError.MalformedRequest
            | Except.error e => e))
  ∧ (∀ (t0 t1 : Str) (ts : List Str) (m : HttpMethod),
        splitStr ' ' [] l0 = t0 :: t1 :: ts → methodFromStr t0 = Except.ok m →
        HttpRequest.new raw = Except.ok { method := m, path := t1,
                                          headers := parse_headers ls,
                                          content := parse_content body }) := by
  constructor
  · intro t0 ht
    rw [new_of_some h1]
    unfold decodeParts
    rw [h2]
    have hps : parse_start_line l0 = Except.error
        (match methodFromStr t0 with
          | Except.ok _ => DecodeError.MalformedRequest
          | Except.error e => e) := by
      unfold parse_start_line
      rw [ht]
      cases hm : methodFromStr t0 with
      | ok m => simp only [hm]
      | error e => simp only [hm]
    simp only [hps]
  · intro t0 t1 ts m ht hm
    rw [new_of_some h1]
    unfold decodeParts
    rw [h2]
    have hps : parse_start_line l0 = Except.ok (m, t1) := by
      unfold parse_start_line
      rw [ht]
      simp only [hm]
    simp only [hps]

/-- C9 witness: a two-token start line decodes with token 1 as the path,
verbatim — the `?` query and `#` fragment stay in the path. -/
theorem spec_c9_witness :
    HttpRequest.new ("GET /a?q=1#f HTTP/1.1\r\n\r\n".toList)
      = Except.ok { method := HttpMethod.Get, path := "/a?q=1#f".toList,
                    headers := [], content := none } := by
  have h := (spec_c9 ("GET /a?q=1#f HTTP/1.1\r\n\r\n".toList)
      ("GET /a?q=1#f HTTP/1.1".toList) [] ("GET /a?q=1#f HTTP/1.1".toList) []
      (by decide) (by decide)).2
    ("GET".toList) ("/a?q=1#f".toList) ["HTTP/1.1".toList] HttpMethod.Get
    (by decide) (by decide)
  exact h.trans (by decide)

/-- C10: a start line with two consecutive spaces right after the method
token decodes successfully, and the path is the empty token between the
two spaces, not the text after them. -/
theorem spec_c10 (m : HttpMethod) (r body : Str)
    (h1 : ('\r' : Char) ∉ r) (_h2 : ('\n' : Char) ∉ r) :
    HttpRequest.new (methodToken m ++ ' ' :: ' ' :: r ++ crlf2 ++ body)
      = Except.ok { method := m, path := [], headers := [],
                    content := parse_content body } := by
  have hrhb : ('\r' : Char) ∉ methodToken m ++ ' ' :: ' ' :: r := by
    intro hmem
    rcases List.mem_append.1 hmem with hm1 | hm2
    · exact not_mem_methodToken_r m hm1
    · rcases List.mem_cons.1 hm2 with h | hm2b
      · exact absurd h (by decide)
      rcases List.mem_cons.1 hm2b with h | hm2c
      · exact absurd h (by decide)
      · exact h1 hm2c
  have hhbn : methodToken m ++ ' ' :: ' ' :: r ≠ [] := by
    cases m <;> simp [methodToken]
  have hsp : splitOnce crlf2 (methodToken m ++ ' ' :: ' ' :: r ++ crlf2 ++ body)
      = some (methodToken m ++ ' ' :: ' ' :: r, body) :=
    splitOnce_crlf2_join [methodToken m ++ ' ' :: ' ' :: r] body
      (by intro l hl; rw [List.mem_singleton] at hl; subst hl; exact hrhb)
      (by intro l hl; rw [List.mem_singleton] at hl; subst hl; exact hhbn)
  have hlines : splitStr '\r' ['\n'] (methodToken m ++ ' ' :: ' ' :: r)
      = [methodToken m ++ ' ' :: ' ' :: r] :=
    splitStr_of_none (splitOnce_not_mem hrhb)
  have htok1 : splitStr ' ' [] (methodToken m ++ ' ' :: ' ' :: r)
      = methodToken m :: splitStr ' ' [] (' ' :: r) :=
    splitStr_token _ (not_mem_methodToken_sp m)
  have htok2 : splitStr ' ' [] (' ' :: r) = [] :: splitStr ' ' [] r :=
    splitStr_token r (List.not_mem_nil ' ')
  have hps : parse_start_line (methodToken m ++ ' ' :: ' ' :: r) = Except.ok (m, []) := by
    unfold parse_start_line
    rw [htok1, htok2]
    simp only [methodFromStr_token]
  rw [new_of_some hsp]
  unfold decodeParts
  rw [hlines]
  simp only [hps]
  rfl

/-- C10 witness: `GET  /a HTTP/1.1` (two spaces) decodes successfully
with the empty path. -/
theorem spec_c10_witness :
    HttpRequest.new ("GET  /a HTTP/1.1\r\n\r\n".toList)
      = Except.ok { method := HttpMethod.Get, path := [], headers := [], content := none } := by
  have h := spec_c10 HttpMethod.Get ("/a HTTP/1.1".toList) [] (by decide) (by decide)
  have e : methodToken HttpMethod.Get ++ ' ' :: ' ' :: ("/a HTTP/1.1".toList) ++ crlf2 ++ []
      = "GET  /a HTTP/1.1\r\n\r\n".toList := by decide
  rw [e] at h
  exact h.trans (by decide)

/-- C2: decoding the request serialized as
`<METHOD> <PATH> HTTP/1.1\r\n<Header: value>\r\n...\r\n\r\n<body>`
recovers the method, the path and the header map, for every method, every
path without spaces or CR/LF, and every header map with distinct keys
whose keys have no `:` and no CR/LF and whose values have no CR/LF and no
leading or trailing whitespace; the decoded content carries exactly the
body bytes when the body is non-empty and is absent when it is empty. -/
theorem spec_c2 (m : HttpMethod) (p : Str) (hs : List (Str × Str)) (body : Str)
    (hp1 : (' ' : Char) ∉ p) (hp2 : ('\r' : Char) ∉ p) (_hp3 : ('\n' : Char) ∉ p)
    (hnd : (hs.map Prod.fst).Nodup)
    (hh : ∀ kv ∈ hs, (':' : Char) ∉ kv.1 ∧ ('\r' : Char) ∉ kv.1 ∧ ('\n' : Char) ∉ kv.1 ∧
      ('\r' : Char) ∉ kv.2 ∧ ('\n' : Char) ∉ kv.2 ∧ noEdgeWS kv.2 = true) :
    HttpRequest.new (encodeRequest m p hs body)
      = Except.ok { method := m, path := p, headers := hs,
                    content := if body = [] then none
                      else some { content := body,
                                  content_type := HttpContentType.TextPlain } } := by
  have hL0r : ('\r' : Char) ∉ methodToken m ++ ' ' :: p ++ ' ' :: "HTTP/1.1".toList := by
    intro hmem
    rcases List.mem_append.1 hmem with h | h
    · rcases List.mem_append.1 h with h2 | h2
      · exact not_mem_methodToken_r m h2
      · rcases List.mem_cons.1 h2 with h3 | h3
        · exact absurd h3 (by decide)
        · exact hp2 h3
    · rcases List.mem_cons.1 h with h2 | h2
      · exact absurd h2 (by decide)
      · exact (by decide : ('\r' : Char) ∉ "HTTP/1.1".toList) h2
  have hL0n : methodToken m ++ ' ' :: p ++ ' ' :: "HTTP/1.1".toList ≠ [] := by
    intro hh2
    rcases List.append_eq_nil.1 hh2 with ⟨_, h2⟩
    cases h2
  have hlines_r : ∀ l ∈ (methodToken m ++ ' ' :: p ++ ' ' :: "HTTP/1.1".toList) :: hs.map hline,
      ('\r' : Char) ∉ l := by
    intro l hl
    rcases List.mem_cons.1 hl with h | h
    · subst h; exact hL0r
    · obtain ⟨kv, hkv, rfl⟩ := List.mem_map.1 h
      obtain ⟨_, hk2, _, hv2, _, _⟩ := hh kv hkv
      intro hmem
      unfold hline at hmem
      rcases List.mem_append.1 hmem with h2 | h2
      · exact hk2 h2
      · rcases List.mem_cons.1 h2 with h3 | h3
        · exact absurd h3 (by decide)
        rcases List.mem_cons.1 h3 with h4 | h4
        · exact absurd h4 (by decide)
        · exact hv2 h4
  have hlines_n : ∀ l ∈ (methodToken m ++ ' ' :: p ++ ' ' :: "HTTP/1.1".toList) :: hs.map hline,
      l ≠ [] := by
    intro l hl
    rcases List.mem_cons.1 hl with h | h
    · subst h; exact hL0n
    · obtain ⟨kv, hkv, rfl⟩ := List.mem_map.1 h
      unfold hline
      intro hh2
      rcases List.append_eq_nil.1 hh2 with ⟨_, h2⟩
      cases h2
  have hsp : splitOnce crlf2 (encodeRequest m p hs body)
      = some (joinCRLF ((methodToken m ++ ' ' :: p ++ ' ' :: "HTTP/1.1".toList) :: hs.map hline),
              body) := by
    unfold encodeRequest
    exact splitOnce_crlf2_join _ body hlines_r hlines_n
  have hps : parse_start_line (methodToken m ++ ' ' :: p ++ ' ' :: "HTTP/1.1".toList)
      = Except.ok (m, p) := by
    unfold parse_start_line
    rw [splitStr_start_line m p hp1]
    simp only [methodFromStr_token]
  rw [new_of_some hsp]
  unfold decodeParts
  rw [splitStr_crlf_join _ (by simp) hlines_r]
  simp only [hps]
  rw [parse_headers_round hs hnd (fun kv hkv => ⟨(hh kv hkv).1, (hh kv hkv).2.2.2.2.2⟩)]
  rfl

/-- C2 witness: a concrete POST with one header and body `hi`
round-trips through encode and decode. -/
theorem spec_c2_witness :
    HttpRequest.new
        (encodeRequest HttpMethod.Post ("/a".toList) [("Host".toList, "h".toList)] ("hi".toList))
      = Except.ok { method := HttpMethod.Post, path := "/a".toList,
                    headers := [("Host".toList, "h".toList)],
                    content := some { content := "hi".toList,
                                      content_type := HttpContentType.TextPlain } } := by
  have h := spec_c2 HttpMethod.Post ("/a".toList) [("Host".toList, "h".toList)] ("hi".toList)
    (by decide) (by decide) (by decide) (by decide) (by decide)
  exact h.trans (by decide)
